/-
Verification of the `agrmt` agreement measure (van der Eijk 2001 port).

The source is `src/agrmt/agreement.py`: a helper `_pattern_agreement`
computing per-pattern agreement from a binary pattern vector by triplet
counting, and a public `agreement` function that validates its input and
decomposes a frequency vector into binary layers, aggregating weighted
per-layer agreement.

Embedding conventions:
  * IEEE-754 double arithmetic is idealised as exact rational arithmetic
    (`ℚ`).  All intermediate quantities in the source are integers or
    ratios of integers, so this is the standard idealisation.
  * The float value `NaN` cannot live in `ℚ`; the predicate `aIsNaN`
    captures exactly the conditions under which the float computation of
    `a` in `_pattern_agreement` yields NaN (0/0 division, or ±∞ · 0),
    with all operands integer-valued as in the source.
  * numpy arrays are lists; a numpy array of Python scalars has integer
    dtype iff every element is an `int` (`PyScalar.int`), which models the
    `np.issubdtype(v.dtype, np.integer)` check.
  * Python exceptions become an `Except AgrError` result, with the error
    taxonomy of the specification (the source raises `ValueError` with
    distinguishing messages).
-/
import Mathlib

deriving instance DecidableEq for Except

namespace Agrmt

/-- A scalar element of the input sequence: either an `int`-typed value or a
`float`-typed value (float values idealised as rationals).  numpy gives the
array an integer dtype iff every element is int-typed. -/
inductive PyScalar where
  | int : ℤ → PyScalar
  | float : ℚ → PyScalar
deriving DecidableEq, Repr

/-- The numeric value of a scalar. -/
def PyScalar.val : PyScalar → ℚ
  | .int n => (n : ℚ)
  | .float q => q

/-- Whether the scalar is int-typed (the dtype check inspects types, not
values). -/
def PyScalar.isInt : PyScalar → Bool
  | .int _ => true
  | .float _ => false

/-- Error taxonomy for `agreement` and its helper. -/
inductive AgrError where
  | lengthError
  | typeError
  | negativeValueError
  | invalidPatternError
deriving DecidableEq, Repr

/-- `np.max` over a vector of naturals (the source only applies it to
nonempty pattern vectors; on `[]` numpy raises, a case never reached). -/
def maxP (p : List ℕ) : ℕ := p.foldr max 0

/-- `np.sum(p)` for a pattern vector. -/
def sumP (p : List ℕ) : ℕ := p.sum

/-- Bimodal triplet count: the source's triple loop
`for i in range(k-2): for j in range(i+1, k-1): for m in range(j+1, k)`
incrementing `tdu` on the `p[i]==1 and p[j]==0 and p[m]==1` test. -/
def tdu (p : List ℕ) : ℕ :=
  ∑ i in Finset.range (p.length - 2), ∑ j in Finset.Ico (i + 1) (p.length - 1),
    ∑ m in Finset.Ico (j + 1) p.length,
      if p.getD i 0 = 1 ∧ p.getD j 0 = 0 ∧ p.getD m 0 = 1 then 1 else 0

/-- Unimodal triplet count: same loop, incrementing `tu` on each of the
`1,1,0` and `0,1,1` tests (two separate `if`s in the source). -/
def tu (p : List ℕ) : ℕ :=
  ∑ i in Finset.range (p.length - 2), ∑ j in Finset.Ico (i + 1) (p.length - 1),
    ∑ m in Finset.Ico (j + 1) p.length,
      ((if p.getD i 0 = 1 ∧ p.getD j 0 = 1 ∧ p.getD m 0 = 0 then 1 else 0) +
       (if p.getD i 0 = 0 ∧ p.getD j 0 = 1 ∧ p.getD m 0 = 1 then 1 else 0))

/-- `u` as computed in the source (equation (2) of van der Eijk 2001):
`0.0` when `tu + tdu == 0`, otherwise
`((k-2)*tu - (k-1)*tdu) / ((k-2)*(tu+tdu))`. -/
def uVal (p : List ℕ) : ℚ :=
  if tu p + tdu p = 0 then 0
  else (((p.length : ℚ) - 2) * (tu p : ℚ) - ((p.length : ℚ) - 1) * (tdu p : ℚ)) /
       (((p.length : ℚ) - 2) * ((tu p : ℚ) + (tdu p : ℚ)))

/-- The factor `1 - (s - 1) / (k - 1)` of the source's
`a = u * (1 - (s - 1) / (k - 1))`. -/
def tVal (p : List ℕ) : ℚ :=
  1 - ((sumP p : ℚ) - 1) / ((p.length : ℚ) - 1)

/-- The float computation of `u` is NaN: the `else` branch divides, and the
division of integer-valued floats is NaN exactly when it is `0/0`. -/
def uIsNaN (p : List ℕ) : Prop :=
  tu p + tdu p ≠ 0 ∧ ((p.length : ℤ) - 2) * ((tu p : ℤ) + (tdu p : ℤ)) = 0 ∧
    ((p.length : ℤ) - 2) * (tu p : ℤ) - ((p.length : ℤ) - 1) * (tdu p : ℤ) = 0

/-- The float computation of `u` is `±∞`: nonzero over zero. -/
def uIsInf (p : List ℕ) : Prop :=
  tu p + tdu p ≠ 0 ∧ ((p.length : ℤ) - 2) * ((tu p : ℤ) + (tdu p : ℤ)) = 0 ∧
    ((p.length : ℤ) - 2) * (tu p : ℤ) - ((p.length : ℤ) - 1) * (tdu p : ℤ) ≠ 0

/-- The float computation of `1 - (s-1)/(k-1)` is NaN: `(s-1)/(k-1)` is `0/0`. -/
def tIsNaN (p : List ℕ) : Prop :=
  (p.length : ℤ) - 1 = 0 ∧ (sumP p : ℤ) - 1 = 0

/-- The float computation of `1 - (s-1)/(k-1)` is `∓∞`: `(s-1)/(k-1)` is
`(±nonzero)/0`, and `1 - ±∞ = ∓∞`. -/
def tIsInf (p : List ℕ) : Prop :=
  (p.length : ℤ) - 1 = 0 ∧ (sumP p : ℤ) - 1 ≠ 0

/-- `np.isnan(a)` for `a = u * (1 - (s-1)/(k-1))` under IEEE semantics with
integer-valued operands: NaN propagates from either factor, and a product of
`±∞` with `0` is NaN (a product of two infinities, or of `±∞` with a nonzero
finite value, is `±∞`, not NaN). -/
def aIsNaN (p : List ℕ) : Prop :=
  uIsNaN p ∨ tIsNaN p ∨
    (uIsInf p ∧ ¬ tIsInf p ∧ tVal p = 0) ∨
    (¬ uIsNaN p ∧ ¬ uIsInf p ∧ uVal p = 0 ∧ tIsInf p)

instance (p : List ℕ) : Decidable (uIsNaN p) := by unfold uIsNaN; infer_instance
instance (p : List ℕ) : Decidable (uIsInf p) := by unfold uIsInf; infer_instance
instance (p : List ℕ) : Decidable (tIsNaN p) := by unfold tIsNaN; infer_instance
instance (p : List ℕ) : Decidable (tIsInf p) := by unfold tIsInf; infer_instance
instance (p : List ℕ) : Decidable (aIsNaN p) := by unfold aIsNaN; infer_instance

/-- The raw formula value `a = u * (1 - (s - 1) / (k - 1))` before the
edge-case overrides. -/
def rawA (p : List ℕ) : ℚ := uVal p * tVal p

/-- The value returned by `_pattern_agreement` when its pattern guard passes:
the raw formula, then `if np.isnan(a): a = 0.0`, then
`if np.sum(p) == 1: a = 1.0`, in source order. -/
def patternVal (p : List ℕ) : ℚ :=
  let a := rawA p
  let a := if aIsNaN p then 0 else a
  if sumP p = 1 then 1 else a

/-- `_pattern_agreement`: fails when `np.max(p) > 1`, otherwise returns the
computed agreement value for the pattern. -/
def patternAgreement (p : List ℕ) : Except AgrError ℚ :=
  if 1 < maxP p then .error .invalidPatternError
  else .ok (patternVal p)

/-- The pattern vector `(r != 0).astype(int)` of the current remainder. -/
def mkPattern (r : List ℚ) : List ℕ :=
  r.map (fun x => if x ≠ 0 then 1 else 0)

/-- `np.min` over a list, with an explicit default for the empty case (the
source guards every `np.min` call by nonemptiness). -/
def npMin (l : List ℚ) (d : ℚ) : ℚ :=
  match l with
  | [] => d
  | x :: xs => xs.foldl min x

/-- `np.min(r[r > 0]) if np.any(r > 0) else 0`: the minimum strictly-positive
remainder value. -/
def minPos (r : List ℚ) : ℚ :=
  npMin (r.filter (fun x => decide (0 < x))) 0

/-- The layer-decomposition loop of `agreement`: `for _ in range(k)` with a
break when the pattern vector is all zero.  Returns the accumulated overall
agreement together with the final remainder. -/
def agreementLoop : ℕ → List ℚ → ℚ → ℚ → Except AgrError (ℚ × List ℚ)
  | 0, r, _, aa => .ok (aa, r)
  | fuel + 1, r, n, aa =>
    let p := mkPattern r
    if maxP p = 0 then .ok (aa, r)
    else
      match patternAgreement p with
      | .error e => .error e
      | .ok a =>
        let m := minPos r
        let layer := p.map (fun (b : ℕ) => (b : ℚ) * m)
        let w := layer.sum / n
        agreementLoop fuel (List.zipWith (· - ·) r layer) n (aa + w * a)

/-- `agreement`: validation (length, dtype, negativity, in source order),
float conversion, then the layer loop with `k = len(v)` iterations and
`n = sum(v)`. -/
def agreement (v : List PyScalar) : Except AgrError ℚ :=
  if v.length < 3 then .error .lengthError
  else if ¬ (v.all PyScalar.isInt) then .error .typeError
  else if npMin (v.map PyScalar.val) 0 < 0 then .error .negativeValueError
  else
    match agreementLoop v.length (v.map PyScalar.val) (v.map PyScalar.val).sum 0 with
    | .error e => .error e
    | .ok (aa, _) => .ok aa

/-! ### Specification-side definitions (for the refinement claim C2)

These follow the specification's words: triplet counts as cardinalities of
sets of ordered index triples `(i, j, m)` with `i < j < m`, `s` as the number
of nonzero entries, and the aggregate formulas. -/

/-- All ordered index triples `(i, j, m)` with `i < j < m` over `k` positions. -/
def orderedTriples (k : ℕ) : Finset (ℕ × ℕ × ℕ) :=
  (Finset.range k ×ˢ Finset.range k ×ˢ Finset.range k).filter
    (fun t => t.1 < t.2.1 ∧ t.2.1 < t.2.2)

/-- Spec: `T_du` is the number of ordered triples matching pattern `(1,0,1)`. -/
def tduSpec (p : List ℕ) : ℕ :=
  ((orderedTriples p.length).filter
    (fun t => p.getD t.1 0 = 1 ∧ p.getD t.2.1 0 = 0 ∧ p.getD t.2.2 0 = 1)).card

/-- Spec: `T_u` is the number of ordered triples matching `(1,1,0)` or `(0,1,1)`. -/
def tuSpec (p : List ℕ) : ℕ :=
  ((orderedTriples p.length).filter
    (fun t => (p.getD t.1 0 = 1 ∧ p.getD t.2.1 0 = 1 ∧ p.getD t.2.2 0 = 0) ∨
              (p.getD t.1 0 = 0 ∧ p.getD t.2.1 0 = 1 ∧ p.getD t.2.2 0 = 1))).card

/-- Spec: `s` is the number of nonzero entries of the pattern vector. -/
def sSpec (p : List ℕ) : ℕ :=
  ((Finset.range p.length).filter (fun i => p.getD i 0 ≠ 0)).card

/-- Spec: `U = ((k-2)·T_u − (k-1)·T_du) / ((k-2)·(T_u + T_du))`, with `U = 0`
when `T_u + T_du = 0`, and `A = U · (1 − (s−1)/(k−1))`. -/
def aSpecFormula (p : List ℕ) : ℚ :=
  let U : ℚ :=
    if tuSpec p + tduSpec p = 0 then 0
    else (((p.length : ℚ) - 2) * (tuSpec p : ℚ) - ((p.length : ℚ) - 1) * (tduSpec p : ℚ)) /
         (((p.length : ℚ) - 2) * ((tuSpec p : ℚ) + (tduSpec p : ℚ)))
  U * (1 - ((sSpec p : ℚ) - 1) / ((p.length : ℚ) - 1))

/-- The number of strictly positive entries of the remainder (used to bound
the number of executed layer iterations). -/
def countPos (r : List ℚ) : ℕ :=
  (r.filter (fun x => decide (0 < x))).length

example : agreement ([0, 0, 100, 0, 0].map PyScalar.int) = .ok 1 := by
  norm_num [agreement, agreementLoop, mkPattern, maxP, minPos, npMin, patternAgreement,
    patternVal, rawA, uVal, tVal, sumP, tdu, tu, aIsNaN, uIsNaN, uIsInf, tIsNaN, tIsInf,
    PyScalar.val, PyScalar.isInt, Finset.sum_range_succ, Finset.sum_Ico_eq_sum_range]

example : agreement ([50, 0, 0, 0, 50].map PyScalar.int) = .ok (-1) := by
  have h1 : tdu [1, 0, 0, 0, 1] = 3 := by decide
  have h2 : tu [1, 0, 0, 0, 1] = 0 := by decide
  norm_num [agreement, agreementLoop, mkPattern, maxP, minPos, npMin, patternAgreement,
    patternVal, rawA, uVal, tVal, sumP, aIsNaN, uIsNaN, uIsInf, tIsNaN, tIsInf,
    PyScalar.val, PyScalar.isInt, h1, h2]

example : agreement ([1, 2].map PyScalar.int) = .error .lengthError := by
  norm_num [agreement]

example : agreement [PyScalar.int 10, PyScalar.float (21/2), PyScalar.int 3] =
    .error .typeError := by norm_num [agreement, PyScalar.isInt]

example : agreement ([10, -5, 20].map PyScalar.int) =
    .error .negativeValueError := by
  norm_num [agreement, PyScalar.isInt, PyScalar.val, npMin]

/-! ### Generic list helpers -/

theorem getD_map_of_lt {α β : Type} (f : α → β) (l : List α) (i : ℕ) (d : β) (e : α)
    (h : i < l.length) : (l.map f).getD i d = f (l.getD i e) := by
  rw [List.getD_eq_getElem _ _ (by simpa using h), List.getD_eq_getElem _ _ h,
    List.getElem_map]

theorem sum_eq_sum_range {M : Type} [AddCommMonoid M] (l : List M) :
    l.sum = ∑ i in Finset.range l.length, l.getD i 0 := by
  induction l with
  | nil => simp
  | cons x xs ih =>
      rw [List.sum_cons, ih, List.length_cons, Finset.sum_range_succ']
      simp [List.getD_cons_succ, List.getD_cons_zero, add_comm]

/-! ### `npMin` and `minPos` -/

theorem foldl_min_le_init (xs : List ℚ) (a : ℚ) : xs.foldl min a ≤ a := by
  induction xs generalizing a with
  | nil => simp
  | cons x xs ih => exact le_trans (ih (min a x)) (min_le_left a x)

theorem foldl_min_le_mem (xs : List ℚ) (a x : ℚ) (hx : x ∈ xs) : xs.foldl min a ≤ x := by
  induction xs generalizing a with
  | nil => simp at hx
  | cons y ys ih =>
      rcases List.mem_cons.mp hx with h | h
      · subst h
        exact le_trans (foldl_min_le_init ys (min a x)) (min_le_right a x)
      · exact ih (min a y) h

theorem foldl_min_mem (xs : List ℚ) (a : ℚ) : xs.foldl min a = a ∨ xs.foldl min a ∈ xs := by
  induction xs generalizing a with
  | nil => simp
  | cons x xs ih =>
      rcases ih (min a x) with h | h
      · rcases min_cases a x with ⟨h', _⟩ | ⟨h', _⟩
        · exact Or.inl (by rw [List.foldl_cons, h, h'])
        · exact Or.inr (by rw [List.foldl_cons, h, h']; exact List.mem_cons_self x xs)
      · exact Or.inr (List.mem_cons_of_mem x h)

theorem le_foldl_min (xs : List ℚ) (a c : ℚ) (ha : c ≤ a) (h : ∀ x ∈ xs, c ≤ x) :
    c ≤ xs.foldl min a := by
  rcases foldl_min_mem xs a with h' | h'
  · rw [h']; exact ha
  · exact h _ h'

theorem npMin_le (l : List ℚ) (d x : ℚ) (hx : x ∈ l) : npMin l d ≤ x := by
  match l with
  | [] => simp at hx
  | y :: ys =>
      rcases List.mem_cons.mp hx with h | h
      · subst h; exact foldl_min_le_init ys x
      · exact foldl_min_le_mem ys y x h

theorem npMin_mem (l : List ℚ) (d : ℚ) (hl : l ≠ []) : npMin l d ∈ l := by
  match l with
  | [] => exact absurd rfl hl
  | y :: ys =>
      rcases foldl_min_mem ys y with h | h
      · rw [npMin, h]; exact List.mem_cons_self y ys
      · exact List.mem_cons_of_mem y h

theorem le_npMin (l : List ℚ) (d c : ℚ) (hd : c ≤ d) (h : ∀ x ∈ l, c ≤ x) :
    c ≤ npMin l d := by
  match l with
  | [] => exact hd
  | y :: ys =>
      show c ≤ List.foldl min y ys
      exact le_foldl_min ys y c (h y (List.mem_cons_self y ys))
        (fun x hx => h x (List.mem_cons_of_mem y hx))

theorem npMin_neg_iff (l : List ℚ) : npMin l 0 < 0 ↔ ∃ x ∈ l, x < 0 := by
  constructor
  · intro h
    match l with
    | [] => simp [npMin] at h
    | y :: ys => exact ⟨npMin (y :: ys) 0, npMin_mem _ 0 (by simp), h⟩
  · rintro ⟨x, hx, hneg⟩
    exact lt_of_le_of_lt (npMin_le l 0 x hx) hneg

theorem minPos_pos (r : List ℚ) (x : ℚ) (hx : x ∈ r) (hpos : 0 < x) :
    0 < minPos r ∧ minPos r ∈ r ∧ minPos r ≤ x := by
  have hmem : x ∈ r.filter (fun y => decide (0 < y)) :=
    List.mem_filter.mpr ⟨hx, by simpa using hpos⟩
  have hne : r.filter (fun y => decide (0 < y)) ≠ [] := List.ne_nil_of_mem hmem
  have hmin := npMin_mem _ 0 hne
  have hf := List.mem_filter.mp hmin
  exact ⟨by simpa using hf.2, hf.1, npMin_le _ 0 x hmem⟩

theorem minPos_le_of_pos (r : List ℚ) (x : ℚ) (hx : x ∈ r) (hpos : 0 < x) :
    minPos r ≤ x :=
  npMin_le _ 0 x (List.mem_filter.mpr ⟨hx, by simpa using hpos⟩)

/-! ### `maxP` and `mkPattern` -/

theorem le_maxP (p : List ℕ) (x : ℕ) (hx : x ∈ p) : x ≤ maxP p := by
  induction p with
  | nil => simp at hx
  | cons y ys ih =>
      rcases List.mem_cons.mp hx with h | h
      · subst h; exact le_max_left _ _
      · exact le_trans (ih h) (le_max_right _ _)

theorem maxP_le (p : List ℕ) (c : ℕ) (h : ∀ x ∈ p, x ≤ c) : maxP p ≤ c := by
  induction p with
  | nil => simp [maxP]
  | cons y ys ih =>
      have : maxP (y :: ys) = max y (maxP ys) := rfl
      rw [this]
      exact max_le (h y (List.mem_cons_self y ys))
        (ih (fun x hx => h x (List.mem_cons_of_mem y hx)))

theorem maxP_eq_zero_iff (p : List ℕ) : maxP p = 0 ↔ ∀ x ∈ p, x = 0 := by
  constructor
  · intro h x hx
    exact Nat.le_zero.mp (h ▸ le_maxP p x hx)
  · intro h
    exact Nat.le_zero.mp (maxP_le p 0 (fun x hx => Nat.le_zero.mpr (h x hx)))

theorem mkPattern_length (r : List ℚ) : (mkPattern r).length = r.length := by
  simp [mkPattern]

theorem mkPattern_binary (r : List ℚ) : ∀ x ∈ mkPattern r, x = 0 ∨ x = 1 := by
  intro x hx
  rcases List.mem_map.mp hx with ⟨y, _, hy⟩
  by_cases h : y ≠ 0 <;> simp [h] at hy <;> omega

theorem maxP_mkPattern_le (r : List ℚ) : maxP (mkPattern r) ≤ 1 := by
  refine maxP_le _ 1 (fun x hx => ?_)
  rcases mkPattern_binary r x hx with h | h <;> omega

theorem mkPattern_getD (r : List ℚ) (i : ℕ) (hi : i < r.length) :
    (mkPattern r).getD i 0 = if r.getD i 0 ≠ 0 then 1 else 0 :=
  getD_map_of_lt _ r i 0 0 hi

theorem maxP_mkPattern_eq_zero_iff (r : List ℚ) :
    maxP (mkPattern r) = 0 ↔ ∀ x ∈ r, x = 0 := by
  rw [maxP_eq_zero_iff]
  constructor
  · intro h x hx
    by_contra hne
    have : (1 : ℕ) ∈ mkPattern r := by
      rcases List.mem_iff_getElem.mp hx with ⟨i, hi, rfl⟩
      refine List.mem_iff_getElem.mpr ⟨i, by simpa [mkPattern_length], ?_⟩
      rw [← List.getD_eq_getElem _ 0 (by simpa [mkPattern_length] using hi),
        mkPattern_getD r i hi, List.getD_eq_getElem _ 0 hi]
      simp [hne]
    exact absurd (h 1 this) one_ne_zero
  · intro h x hx
    rcases List.mem_map.mp hx with ⟨y, hy, rfl⟩
    simp [h y hy]

/-! ### Triplet counting: the source's nested loops equal the spec's
cardinalities of ordered-triple sets -/

theorem filter_gt_range (k j : ℕ) :
    (Finset.range k).filter (fun m => j < m) = Finset.Ico (j + 1) k := by
  ext m
  simp only [Finset.mem_filter, Finset.mem_range, Finset.mem_Ico]
  omega

theorem tripleSum (k : ℕ) (f : ℕ → ℕ → ℕ → ℕ) :
    (∑ i in Finset.range k, ∑ j in Finset.range k, ∑ m in Finset.range k,
      if i < j ∧ j < m then f i j m else 0)
    = ∑ i in Finset.range (k - 2), ∑ j in Finset.Ico (i + 1) (k - 1),
        ∑ m in Finset.Ico (j + 1) k, f i j m := by
  have hinner : ∀ i j, (∑ m in Finset.range k, if i < j ∧ j < m then f i j m else 0)
      = if i < j then ∑ m in Finset.Ico (j + 1) k, f i j m else 0 := by
    intro i j
    by_cases hij : i < j
    · simp only [hij, true_and, if_true]
      rw [← filter_gt_range k j, Finset.sum_filter]
    · simp [hij]
  have hmid : ∀ i, (∑ j in Finset.range k,
        if i < j then ∑ m in Finset.Ico (j + 1) k, f i j m else 0)
      = ∑ j in Finset.Ico (i + 1) (k - 1), ∑ m in Finset.Ico (j + 1) k, f i j m := by
    intro i
    rw [← Finset.sum_filter, filter_gt_range k i]
    refine (Finset.sum_subset (Finset.Ico_subset_Ico le_rfl (Nat.sub_le k 1)) ?_).symm
    intro j hj hj'
    have : Finset.Ico (j + 1) k = ∅ := by
      apply Finset.Ico_eq_empty
      simp only [Finset.mem_Ico] at hj hj'
      omega
    simp [this]
  calc (∑ i in Finset.range k, ∑ j in Finset.range k, ∑ m in Finset.range k,
          if i < j ∧ j < m then f i j m else 0)
      = ∑ i in Finset.range k, ∑ j in Finset.Ico (i + 1) (k - 1),
          ∑ m in Finset.Ico (j + 1) k, f i j m := by
        refine Finset.sum_congr rfl (fun i _ => ?_)
        rw [← hmid i]
        exact Finset.sum_congr rfl (fun j _ => hinner i j)
    _ = ∑ i in Finset.range (k - 2), ∑ j in Finset.Ico (i + 1) (k - 1),
          ∑ m in Finset.Ico (j + 1) k, f i j m := by
        refine (Finset.sum_subset (Finset.range_subset.mpr (Nat.sub_le k 2)) ?_).symm
        intro i hi hi'
        have : Finset.Ico (i + 1) (k - 1) = ∅ := by
          apply Finset.Ico_eq_empty
          simp only [Finset.mem_range] at hi hi'
          omega
        simp [this]

theorem card_orderedTriples_filter (k : ℕ) (q : ℕ × ℕ × ℕ → Prop) [DecidablePred q] :
    ((orderedTriples k).filter q).card
      = ∑ i in Finset.range k, ∑ j in Finset.range k, ∑ m in Finset.range k,
          if (i < j ∧ j < m) ∧ q (i, j, m) then 1 else 0 := by
  rw [orderedTriples, Finset.filter_filter, Finset.card_filter]
  rw [Finset.sum_product]
  refine Finset.sum_congr rfl (fun i _ => ?_)
  rw [Finset.sum_product]

theorem tdu_eq_spec (p : List ℕ) : tdu p = tduSpec p := by
  rw [tduSpec, card_orderedTriples_filter, tdu,
    ← tripleSum p.length (fun i j m =>
      if p.getD i 0 = 1 ∧ p.getD j 0 = 0 ∧ p.getD m 0 = 1 then 1 else 0)]
  refine Finset.sum_congr rfl (fun i _ => Finset.sum_congr rfl (fun j _ =>
    Finset.sum_congr rfl (fun m _ => ?_)))
  by_cases h1 : i < j ∧ j < m <;>
    by_cases h2 : p.getD i 0 = 1 ∧ p.getD j 0 = 0 ∧ p.getD m 0 = 1 <;>
      simp [h1, h2]

theorem tu_eq_spec (p : List ℕ) : tu p = tuSpec p := by
  rw [tuSpec, card_orderedTriples_filter, tu,
    ← tripleSum p.length (fun i j m =>
      (if p.getD i 0 = 1 ∧ p.getD j 0 = 1 ∧ p.getD m 0 = 0 then 1 else 0) +
      (if p.getD i 0 = 0 ∧ p.getD j 0 = 1 ∧ p.getD m 0 = 1 then 1 else 0))]
  refine Finset.sum_congr rfl (fun i _ => Finset.sum_congr rfl (fun j _ =>
    Finset.sum_congr rfl (fun m _ => ?_)))
  by_cases h1 : i < j ∧ j < m
  · rw [if_pos h1, if_congr (and_iff_right h1) rfl rfl]
    by_cases h2 : p.getD i 0 = 1 ∧ p.getD j 0 = 1 ∧ p.getD m 0 = 0
    · have h3 : ¬ (p.getD i 0 = 0 ∧ p.getD j 0 = 1 ∧ p.getD m 0 = 1) := by
        intro h3
        omega
      rw [if_pos h2, if_neg h3, if_pos (Or.inl h2)]
    · by_cases h3 : p.getD i 0 = 0 ∧ p.getD j 0 = 1 ∧ p.getD m 0 = 1
      · rw [if_neg h2, if_pos h3, if_pos (Or.inr h3)]
      · rw [if_neg h2, if_neg h3, if_neg (by tauto)]
  · rw [if_neg h1, if_neg (fun hc => h1 hc.1)]

/-! ### Properties of `sumP` and the triplet counts on binary patterns -/

theorem getD_mem (p : List ℕ) (i : ℕ) (hi : i < p.length) : p.getD i 0 ∈ p := by
  rw [List.getD_eq_getElem _ _ hi]
  exact List.getElem_mem hi

theorem sumP_eq_sSpec (p : List ℕ) (hb : ∀ x ∈ p, x ≤ 1) : sumP p = sSpec p := by
  rw [sSpec, Finset.card_filter, sumP, sum_eq_sum_range]
  refine Finset.sum_congr rfl (fun i hi => ?_)
  have hx := hb _ (getD_mem p i (Finset.mem_range.mp hi))
  by_cases h : p.getD i 0 = 0
  · rw [if_neg (not_not_intro h), h]
  · have h1 : p.getD i 0 = 1 := by omega
    rw [if_pos h, h1]

theorem sumP_le_length (p : List ℕ) (hb : ∀ x ∈ p, x ≤ 1) : sumP p ≤ p.length := by
  have := List.sum_le_card_nsmul p 1 hb
  simpa [sumP] using this

theorem pair_le_sumP (p : List ℕ) (i m : ℕ) (hi : i < p.length) (hm : m < p.length)
    (hne : i ≠ m) (h1 : p.getD i 0 = 1) (h2 : p.getD m 0 = 1) : 2 ≤ sumP p := by
  rw [sumP, sum_eq_sum_range]
  have hsub : ({i, m} : Finset ℕ) ⊆ Finset.range p.length := by
    intro x hx
    rcases Finset.mem_insert.mp hx with rfl | hx
    · exact Finset.mem_range.mpr hi
    · rw [Finset.mem_singleton.mp hx]
      exact Finset.mem_range.mpr hm
  have hle := Finset.sum_le_sum_of_subset (f := fun j => p.getD j 0) hsub
  rw [Finset.sum_pair hne, h1, h2] at hle
  exact le_trans (by norm_num) hle

theorem two_le_sumP (p : List ℕ) (h : tu p + tdu p ≠ 0) : 2 ≤ sumP p := by
  by_cases hdu : tdu p = 0
  · have htu : tu p ≠ 0 := by omega
    rw [tu_eq_spec] at htu
    obtain ⟨⟨i, j, m⟩, ht⟩ := Finset.card_ne_zero.mp htu
    simp only [tuSpec, orderedTriples, Finset.filter_filter, Finset.mem_filter,
      Finset.mem_product, Finset.mem_range] at ht
    obtain ⟨⟨hik, hjk, hmk⟩, ⟨hij, hjm⟩, hpat⟩ := ht
    rcases hpat with ⟨hpi, hpj, _⟩ | ⟨_, hpj, hpm⟩
    · exact pair_le_sumP p i j hik hjk (by omega) hpi hpj
    · exact pair_le_sumP p j m hjk hmk (by omega) hpj hpm
  · rw [tdu_eq_spec] at hdu
    obtain ⟨⟨i, j, m⟩, ht⟩ := Finset.card_ne_zero.mp hdu
    simp only [tduSpec, orderedTriples, Finset.filter_filter, Finset.mem_filter,
      Finset.mem_product, Finset.mem_range] at ht
    obtain ⟨⟨hik, hjk, hmk⟩, ⟨hij, hjm⟩, hpi, _, hpm⟩ := ht
    exact pair_le_sumP p i m hik hmk (by omega) hpi hpm

/-! ### The NaN-fallback is vacuous for patterns of length at least 3 -/

theorem not_aIsNaN (p : List ℕ) (hk : 3 ≤ p.length) : ¬ aIsNaN p := by
  intro h
  rcases h with ⟨hT, hden, _⟩ | ⟨hk1, _⟩ | ⟨⟨hT, hden, _⟩, _, _⟩ | ⟨_, _, _, hk1, _⟩
  · rcases mul_eq_zero.mp hden with h' | h' <;> omega
  · omega
  · rcases mul_eq_zero.mp hden with h' | h' <;> omega
  · omega

theorem patternVal_no_nan (p : List ℕ) (hk : 3 ≤ p.length) :
    patternVal p = if sumP p = 1 then 1 else rawA p := by
  rw [patternVal]
  simp only [if_neg (not_aIsNaN p hk)]

/-! ### The per-pattern agreement value is bounded in [-1, 1] -/

theorem patternVal_bound (p : List ℕ) (hk : 3 ≤ p.length) (hb : ∀ x ∈ p, x ≤ 1) :
    -1 ≤ patternVal p ∧ patternVal p ≤ 1 := by
  rw [patternVal_no_nan p hk]
  by_cases hs1 : sumP p = 1
  · rw [if_pos hs1]
    norm_num
  rw [if_neg hs1, rawA]
  have hK : (3 : ℚ) ≤ (p.length : ℚ) := by exact_mod_cast hk
  by_cases hT : tu p + tdu p = 0
  · rw [uVal, if_pos hT, zero_mul]
    norm_num
  have hs2 : 2 ≤ sumP p := two_le_sumP p hT
  have hsk : sumP p ≤ p.length := sumP_le_length p hb
  have hS2 : (2 : ℚ) ≤ (sumP p : ℚ) := by exact_mod_cast hs2
  have hSK : (sumP p : ℚ) ≤ (p.length : ℚ) := by exact_mod_cast hsk
  have hTU : (0 : ℚ) ≤ (tu p : ℚ) := Nat.cast_nonneg _
  have hTD : (0 : ℚ) ≤ (tdu p : ℚ) := Nat.cast_nonneg _
  have hTpos : (0 : ℚ) < (tu p : ℚ) + (tdu p : ℚ) := by
    have : 1 ≤ tu p + tdu p := Nat.one_le_iff_ne_zero.mpr hT
    have : (1 : ℚ) ≤ (tu p : ℚ) + (tdu p : ℚ) := by exact_mod_cast this
    linarith
  have hden : (0 : ℚ) < ((p.length : ℚ) - 2) * ((tu p : ℚ) + (tdu p : ℚ)) :=
    mul_pos (by linarith) hTpos
  have htv : tVal p = ((p.length : ℚ) - (sumP p : ℚ)) / ((p.length : ℚ) - 1) := by
    rw [tVal, eq_div_iff (show (p.length : ℚ) - 1 ≠ 0 by linarith), sub_mul,
      div_mul_cancel₀ _ (show (p.length : ℚ) - 1 ≠ 0 by linarith)]
    ring
  have htv_nonneg : 0 ≤ tVal p := by
    rw [htv]
    exact div_nonneg (by linarith) (by linarith)
  have htv_le_one : tVal p ≤ 1 := by
    rw [htv, div_le_one (by linarith)]
    linarith
  have hu_le_one : uVal p ≤ 1 := by
    rw [uVal, if_neg hT, div_le_one hden]
    nlinarith [mul_nonneg (show (0 : ℚ) ≤ 2 * (p.length : ℚ) - 3 by linarith) hTD]
  constructor
  · have hprod : uVal p * tVal p =
        ((((p.length : ℚ) - 2) * (tu p : ℚ) - ((p.length : ℚ) - 1) * (tdu p : ℚ)) *
          ((p.length : ℚ) - (sumP p : ℚ))) /
        ((((p.length : ℚ) - 2) * ((tu p : ℚ) + (tdu p : ℚ))) * ((p.length : ℚ) - 1)) := by
      rw [uVal, if_neg hT, htv, div_mul_div_comm]
    rw [hprod, le_div_iff₀ (mul_pos hden (by linarith))]
    nlinarith [mul_nonneg (mul_nonneg (show (0 : ℚ) ≤ (p.length : ℚ) - 2 by linarith)
        (show (0 : ℚ) ≤ 2 * (p.length : ℚ) - (sumP p : ℚ) - 1 by linarith)) hTU,
      mul_nonneg (mul_nonneg (show (0 : ℚ) ≤ (p.length : ℚ) - 1 by linarith)
        (show (0 : ℚ) ≤ (sumP p : ℚ) - 2 by linarith)) hTD]
  · calc uVal p * tVal p ≤ 1 * 1 :=
        mul_le_mul hu_le_one htv_le_one htv_nonneg zero_le_one
    _ = 1 := one_mul 1

/-! ### The loop body: fused forms of the layer and the new remainder -/

theorem sum_map_sub (l : List ℚ) (f g : ℚ → ℚ) :
    (l.map (fun x => f x - g x)).sum = (l.map f).sum - (l.map g).sum := by
  induction l with
  | nil => simp
  | cons x xs ih => simp [ih]; ring

theorem step_remainder_eq (r : List ℚ) (m : ℚ) :
    List.zipWith (· - ·) r ((mkPattern r).map (fun (b : ℕ) => (b : ℚ) * m))
      = r.map (fun y => y - (if y ≠ 0 then 1 else 0) * m) := by
  rw [mkPattern, List.map_map, List.zipWith_map_right, List.zipWith_same]
  congr 1
  funext y
  by_cases h : y = 0 <;> simp [h]

theorem layer_sum_eq (r : List ℚ) (m : ℚ) :
    ((mkPattern r).map (fun (b : ℕ) => (b : ℚ) * m)).sum
      = (r.map (fun y => (if y ≠ 0 then (1 : ℚ) else 0) * m)).sum := by
  rw [mkPattern, List.map_map]
  refine congrArg List.sum (List.map_congr_left (fun y _ => ?_))
  by_cases h : y = 0 <;> simp [h]

theorem sum_step_remainder (r : List ℚ) (m : ℚ) :
    (r.map (fun y => y - (if y ≠ 0 then 1 else 0) * m)).sum
      = r.sum - (r.map (fun y => (if y ≠ 0 then (1 : ℚ) else 0) * m)).sum := by
  induction r with
  | nil => simp
  | cons x xs ih =>
      simp only [List.map_cons, List.sum_cons, ih]
      ring

/-! ### Unfolding and basic behaviour of the layer loop -/

theorem patternAgreement_mkPattern (r : List ℚ) :
    patternAgreement (mkPattern r) = .ok (patternVal (mkPattern r)) := by
  rw [patternAgreement, if_neg]
  exact fun h => absurd (maxP_mkPattern_le r) (by omega)

theorem agreementLoop_succ (fuel : ℕ) (r : List ℚ) (n aa : ℚ) :
    agreementLoop (fuel + 1) r n aa =
      if maxP (mkPattern r) = 0 then .ok (aa, r)
      else
        agreementLoop fuel
          (List.zipWith (· - ·) r ((mkPattern r).map (fun (b : ℕ) => (b : ℚ) * minPos r)))
          n
          (aa + (((mkPattern r).map (fun (b : ℕ) => (b : ℚ) * minPos r)).sum / n) *
            patternVal (mkPattern r)) := by
  rw [agreementLoop]
  by_cases h : maxP (mkPattern r) = 0
  · simp [h]
  · simp only [if_neg h, patternAgreement_mkPattern r]

theorem agreementLoop_all_zero (fuel : ℕ) (r : List ℚ) (n aa : ℚ)
    (h : ∀ x ∈ r, x = 0) : agreementLoop fuel r n aa = .ok (aa, r) := by
  cases fuel with
  | zero => rfl
  | succ f => rw [agreementLoop_succ, if_pos ((maxP_mkPattern_eq_zero_iff r).mpr h)]

theorem step_facts (r : List ℚ) (hnn : ∀ x ∈ r, 0 ≤ x) (hex : ∃ x ∈ r, x ≠ 0) :
    0 < minPos r ∧
    (∀ y ∈ r.map (fun y => y - (if y ≠ 0 then 1 else 0) * minPos r), 0 ≤ y) ∧
    0 ≤ (r.map (fun y => (if y ≠ 0 then (1 : ℚ) else 0) * minPos r)).sum ∧
    (r.map (fun y => (if y ≠ 0 then (1 : ℚ) else 0) * minPos r)).sum ≤ r.sum := by
  obtain ⟨x, hx, hxne⟩ := hex
  have hxpos : 0 < x := lt_of_le_of_ne (hnn x hx) (Ne.symm hxne)
  have hm : 0 < minPos r := (minPos_pos r x hx hxpos).1
  refine ⟨hm, ?_, ?_, ?_⟩
  · intro y' hy'
    obtain ⟨y, hy, rfl⟩ := List.mem_map.mp hy'
    by_cases h : y = 0
    · simp [h]
    · have hypos : 0 < y := lt_of_le_of_ne (hnn y hy) (Ne.symm h)
      have := minPos_le_of_pos r y hy hypos
      simp only [h, ne_eq, not_false_iff, if_true, one_mul]
      linarith
  · refine List.sum_nonneg (fun z hz => ?_)
    obtain ⟨y, _, rfl⟩ := List.mem_map.mp hz
    by_cases h : y = 0 <;> simp [h, hm.le]
  · have hpt : ∀ y ∈ r, (if y ≠ 0 then (1 : ℚ) else 0) * minPos r ≤ id y := by
      intro y hy
      by_cases h : y = 0
      · simp [h]
      · have hypos : 0 < y := lt_of_le_of_ne (hnn y hy) (Ne.symm h)
        have := minPos_le_of_pos r y hy hypos
        simp only [h, ne_eq, not_false_iff, if_true, one_mul, id]
        linarith
    have := List.sum_le_sum hpt
    simpa using this

theorem agreementLoop_bound (fuel : ℕ) :
    ∀ (r : List ℚ) (aa n : ℚ), 3 ≤ r.length → (∀ x ∈ r, 0 ≤ x) → 0 < n →
      ∃ aa' r', agreementLoop fuel r n aa = .ok (aa', r') ∧
        |aa' - aa| ≤ r.sum / n := by
  induction fuel with
  | zero =>
      intro r aa n _ hnn hn
      refine ⟨aa, r, rfl, ?_⟩
      rw [sub_self, abs_zero]
      exact div_nonneg (List.sum_nonneg hnn) hn.le
  | succ f ih =>
      intro r aa n hlen hnn hn
      by_cases hz : maxP (mkPattern r) = 0
      · refine ⟨aa, r, ?_, ?_⟩
        · rw [agreementLoop_succ, if_pos hz]
        · rw [sub_self, abs_zero]
          exact div_nonneg (List.sum_nonneg hnn) hn.le
      · have hex : ∃ x ∈ r, x ≠ 0 := by
          by_contra hcon
          push_neg at hcon
          exact hz ((maxP_mkPattern_eq_zero_iff r).mpr hcon)
        obtain ⟨hm, hnn', hls0, hls1⟩ := step_facts r hnn hex
        have hlen' : 3 ≤ (r.map (fun y => y - (if y ≠ 0 then 1 else 0) * minPos r)).length := by
          simpa using hlen
        obtain ⟨aa'', r'', hres, hbound⟩ := ih
          (r.map (fun y => y - (if y ≠ 0 then 1 else 0) * minPos r))
          (aa + ((r.map (fun y => (if y ≠ 0 then (1 : ℚ) else 0) * minPos r)).sum / n) *
            patternVal (mkPattern r))
          n hlen' hnn' hn
        refine ⟨aa'', r'', ?_, ?_⟩
        · rw [agreementLoop_succ, if_neg hz, step_remainder_eq, layer_sum_eq]
          exact hres
        · have habs : |patternVal (mkPattern r)| ≤ 1 := by
            refine abs_le.mpr (patternVal_bound (mkPattern r) ?_ ?_)
            · rw [mkPattern_length]
              exact hlen
            · intro x hx
              rcases mkPattern_binary r x hx with h | h <;> omega
          have hw0 : 0 ≤ (r.map (fun y => (if y ≠ 0 then (1 : ℚ) else 0) * minPos r)).sum / n :=
            div_nonneg hls0 hn.le
          rw [sum_step_remainder] at hbound
          have h1 : |aa'' - aa| ≤
              |aa'' - (aa + ((r.map (fun y => (if y ≠ 0 then (1 : ℚ) else 0) * minPos r)).sum / n) *
                patternVal (mkPattern r))| +
              |((r.map (fun y => (if y ≠ 0 then (1 : ℚ) else 0) * minPos r)).sum / n) *
                patternVal (mkPattern r)| := by
            have := abs_add
              (aa'' - (aa + ((r.map (fun y => (if y ≠ 0 then (1 : ℚ) else 0) * minPos r)).sum / n) *
                patternVal (mkPattern r)))
              (((r.map (fun y => (if y ≠ 0 then (1 : ℚ) else 0) * minPos r)).sum / n) *
                patternVal (mkPattern r))
            have heq : aa'' - (aa + ((r.map (fun y => (if y ≠ 0 then (1 : ℚ) else 0) * minPos r)).sum / n) *
                patternVal (mkPattern r)) +
                ((r.map (fun y => (if y ≠ 0 then (1 : ℚ) else 0) * minPos r)).sum / n) *
                patternVal (mkPattern r) = aa'' - aa := by ring
            rwa [heq] at this
          have h2 : |((r.map (fun y => (if y ≠ 0 then (1 : ℚ) else 0) * minPos r)).sum / n) *
              patternVal (mkPattern r)| ≤
              (r.map (fun y => (if y ≠ 0 then (1 : ℚ) else 0) * minPos r)).sum / n := by
            rw [abs_mul, abs_of_nonneg hw0]
            exact mul_le_of_le_one_right hw0 habs
          have h3 : (r.sum - (r.map (fun y => (if y ≠ 0 then (1 : ℚ) else 0) * minPos r)).sum) / n +
              (r.map (fun y => (if y ≠ 0 then (1 : ℚ) else 0) * minPos r)).sum / n = r.sum / n := by
            rw [div_add_div_same]
            ring_nf
          linarith

theorem agreementLoop_ok (fuel : ℕ) :
    ∀ (r : List ℚ) (n aa : ℚ), ∃ aa' r', agreementLoop fuel r n aa = .ok (aa', r') := by
  induction fuel with
  | zero => exact fun r n aa => ⟨aa, r, rfl⟩
  | succ f ih =>
      intro r n aa
      by_cases hz : maxP (mkPattern r) = 0
      · exact ⟨aa, r, by rw [agreementLoop_succ, if_pos hz]⟩
      · obtain ⟨aa', r', h⟩ := ih
          (List.zipWith (· - ·) r ((mkPattern r).map (fun (b : ℕ) => (b : ℚ) * minPos r)))
          n
          (aa + (((mkPattern r).map (fun (b : ℕ) => (b : ℚ) * minPos r)).sum / n) *
            patternVal (mkPattern r))
        exact ⟨aa', r', by rw [agreementLoop_succ, if_neg hz]; exact h⟩

/-! ### Termination of the decomposition: the count of positive entries
strictly decreases at each executed iteration -/

theorem length_filter_mono (l : List ℚ) (p q : ℚ → Bool)
    (himp : ∀ y ∈ l, p y = true → q y = true) :
    (l.filter p).length ≤ (l.filter q).length := by
  induction l with
  | nil => simp
  | cons hd tl ih =>
      have ih' := ih (fun y hy => himp y (List.mem_cons_of_mem hd hy))
      by_cases hp : p hd
      · rw [List.filter_cons_of_pos hp,
          List.filter_cons_of_pos (himp hd (List.mem_cons_self hd tl) hp)]
        simpa using ih'
      · rw [List.filter_cons_of_neg (by simpa using hp)]
        by_cases hq : q hd
        · rw [List.filter_cons_of_pos hq, List.length_cons]
          omega
        · rw [List.filter_cons_of_neg (by simpa using hq)]
          exact ih'

theorem length_filter_lt (l : List ℚ) (p q : ℚ → Bool) (x : ℚ)
    (hq : q x = true) (hp : p x = false) :
    x ∈ l → (∀ y ∈ l, p y = true → q y = true) →
      (l.filter p).length < (l.filter q).length := by
  induction l with
  | nil => intro hx _; simp at hx
  | cons hd tl ih =>
      intro hx himp
      have himp' : ∀ y ∈ tl, p y = true → q y = true :=
        fun y hy => himp y (List.mem_cons_of_mem hd hy)
      rcases List.mem_cons.mp hx with rfl | hx'
      · rw [List.filter_cons_of_neg (by simp [hp]), List.filter_cons_of_pos hq,
          List.length_cons]
        have := length_filter_mono tl p q himp'
        omega
      · have ihx := ih hx' himp'
        by_cases hphd : p hd
        · rw [List.filter_cons_of_pos hphd,
            List.filter_cons_of_pos (himp hd (List.mem_cons_self hd tl) hphd),
            List.length_cons, List.length_cons]
          omega
        · rw [List.filter_cons_of_neg (by simpa using hphd)]
          by_cases hqhd : q hd
          · rw [List.filter_cons_of_pos hqhd, List.length_cons]
            omega
          · rw [List.filter_cons_of_neg (by simpa using hqhd)]
            exact ihx

theorem countPos_step (r : List ℚ) (hnn : ∀ x ∈ r, 0 ≤ x) (hex : ∃ x ∈ r, x ≠ 0) :
    countPos (r.map (fun y => y - (if y ≠ 0 then 1 else 0) * minPos r)) < countPos r := by
  obtain ⟨x, hx, hxne⟩ := hex
  have hxpos : 0 < x := lt_of_le_of_ne (hnn x hx) (Ne.symm hxne)
  obtain ⟨hmpos, hmmem, _⟩ := minPos_pos r x hx hxpos
  rw [countPos, List.filter_map, List.length_map]
  have hcong : (r.filter ((fun z => decide (0 < z)) ∘
        (fun y => y - (if y ≠ 0 then 1 else 0) * minPos r)))
      = r.filter (fun y => decide (minPos r < y)) := by
    refine List.filter_congr (fun y hy => ?_)
    simp only [Function.comp]
    rw [decide_eq_decide]
    by_cases h : y = 0
    · subst h
      simp only [ne_eq, not_true_eq_false, if_false, zero_mul, sub_zero]
      exact iff_of_false (lt_irrefl 0) (not_lt_of_gt hmpos)
    · have hypos : 0 < y := lt_of_le_of_ne (hnn y hy) (Ne.symm h)
      simp only [h, ne_eq, not_false_iff, if_true, one_mul]
      exact sub_pos
  rw [hcong]
  refine length_filter_lt r (fun y => decide (minPos r < y)) (fun y => decide (0 < y))
    (minPos r) (by simpa using hmpos) (by simp) hmmem ?_
  intro y _ hy
  simp only [decide_eq_true_eq] at hy ⊢
  linarith

theorem agreementLoop_terminates (fuel : ℕ) :
    ∀ (r : List ℚ) (n aa : ℚ), (∀ x ∈ r, 0 ≤ x) → countPos r ≤ fuel →
      ∃ aa' r', agreementLoop fuel r n aa = .ok (aa', r') ∧ ∀ x ∈ r', x = 0 := by
  induction fuel with
  | zero =>
      intro r n aa hnn hcp
      refine ⟨aa, r, rfl, fun x hx => ?_⟩
      by_contra hne
      have hxpos : 0 < x := lt_of_le_of_ne (hnn x hx) (Ne.symm hne)
      have hmem : x ∈ r.filter (fun y => decide (0 < y)) :=
        List.mem_filter.mpr ⟨hx, by simpa using hxpos⟩
      have hne0 : countPos r ≠ 0 := by
        rw [countPos]
        intro h
        rw [List.length_eq_zero.mp h] at hmem
        exact List.not_mem_nil x hmem
      omega
  | succ f ih =>
      intro r n aa hnn hcp
      by_cases hz : maxP (mkPattern r) = 0
      · exact ⟨aa, r, by rw [agreementLoop_succ, if_pos hz],
          (maxP_mkPattern_eq_zero_iff r).mp hz⟩
      · have hex : ∃ x ∈ r, x ≠ 0 := by
          by_contra hcon
          push_neg at hcon
          exact hz ((maxP_mkPattern_eq_zero_iff r).mpr hcon)
        obtain ⟨hm, hnn', _, _⟩ := step_facts r hnn hex
        have hdec := countPos_step r hnn hex
        obtain ⟨aa', r', hres, hzero⟩ := ih
          (r.map (fun y => y - (if y ≠ 0 then 1 else 0) * minPos r))
          n
          (aa + ((r.map (fun y => (if y ≠ 0 then (1 : ℚ) else 0) * minPos r)).sum / n) *
            patternVal (mkPattern r))
          hnn' (by omega)
        refine ⟨aa', r', ?_, hzero⟩
        rw [agreementLoop_succ, if_neg hz, step_remainder_eq, layer_sum_eq]
        exact hres

theorem exists_entry_zeroed (r : List ℚ) (hnn : ∀ x ∈ r, 0 ≤ x) (hex : ∃ x ∈ r, x ≠ 0) :
    ∃ x ∈ r, 0 < x ∧ x - (if x ≠ 0 then 1 else 0) * minPos r = 0 := by
  obtain ⟨x, hx, hxne⟩ := hex
  have hxpos : 0 < x := lt_of_le_of_ne (hnn x hx) (Ne.symm hxne)
  obtain ⟨hmpos, hmmem, _⟩ := minPos_pos r x hx hxpos
  refine ⟨minPos r, hmmem, hmpos, ?_⟩
  simp [ne_of_gt hmpos]

/-! ### Scale invariance of the loop -/

theorem mkPattern_scale (c : ℚ) (hc : c ≠ 0) (r : List ℚ) :
    mkPattern (r.map (fun y => c * y)) = mkPattern r := by
  rw [mkPattern, mkPattern, List.map_map]
  refine List.map_congr_left (fun y _ => ?_)
  simp only [Function.comp]
  by_cases h : y = 0 <;> simp [h, mul_eq_zero, hc]

theorem foldl_min_scale (c : ℚ) (hc : 0 ≤ c) (xs : List ℚ) :
    ∀ a, (xs.map (fun y => c * y)).foldl min (c * a) = c * xs.foldl min a := by
  induction xs with
  | nil => intro a; simp
  | cons x xs ih =>
      intro a
      simp only [List.map_cons, List.foldl_cons]
      rw [← mul_min_of_nonneg _ _ hc, ih]

theorem filter_pos_scale (c : ℚ) (hc : 0 < c) (r : List ℚ) :
    (r.map (fun y => c * y)).filter (fun x => decide (0 < x))
      = (r.filter (fun x => decide (0 < x))).map (fun y => c * y) := by
  rw [List.filter_map]
  congr 1
  refine List.filter_congr (fun y _ => ?_)
  simp only [Function.comp]
  rw [decide_eq_decide]
  exact ⟨fun h => by nlinarith, fun h => mul_pos hc h⟩

theorem minPos_scale (c : ℚ) (hc : 0 < c) (r : List ℚ) :
    minPos (r.map (fun y => c * y)) = c * minPos r := by
  rw [minPos, minPos, filter_pos_scale c hc]
  cases h : r.filter (fun x => decide (0 < x)) with
  | nil => simp [npMin]
  | cons x xs =>
      simp only [List.map_cons, npMin]
      exact foldl_min_scale c hc.le xs x

theorem sum_map_scale (c : ℚ) (r : List ℚ) :
    (r.map (fun y => c * y)).sum = c * r.sum := by
  induction r with
  | nil => simp
  | cons x xs ih =>
      simp only [List.map_cons, List.sum_cons, ih]
      ring

theorem agreementLoop_scale (c : ℚ) (hc : 0 < c) (fuel : ℕ) :
    ∀ (r : List ℚ) (n aa : ℚ),
      agreementLoop fuel (r.map (fun y => c * y)) (c * n) aa
        = (agreementLoop fuel r n aa).map
            (fun res => (res.1, res.2.map (fun y => c * y))) := by
  induction fuel with
  | zero => intro r n aa; rfl
  | succ f ih =>
      intro r n aa
      have hpat : mkPattern (r.map (fun y => c * y)) = mkPattern r :=
        mkPattern_scale c hc.ne' r
      rw [agreementLoop_succ, agreementLoop_succ, step_remainder_eq, step_remainder_eq,
        layer_sum_eq, layer_sum_eq, hpat, minPos_scale c hc]
      by_cases hz : maxP (mkPattern r) = 0
      · rw [if_pos hz, if_pos hz]
        rfl
      · rw [if_neg hz, if_neg hz]
        have hrw1 : (r.map (fun y => c * y)).map
              (fun y => y - (if y ≠ 0 then 1 else 0) * (c * minPos r))
            = (r.map (fun y => y - (if y ≠ 0 then 1 else 0) * minPos r)).map
              (fun y => c * y) := by
          rw [List.map_map, List.map_map]
          refine List.map_congr_left (fun y _ => ?_)
          simp only [Function.comp]
          by_cases h : y = 0
          · simp [h]
          · simp only [h, ne_eq, not_false_iff, if_true, one_mul,
              mul_eq_zero, hc.ne', false_or, if_neg h]
            ring
        have hrw2 : ((r.map (fun y => c * y)).map
              (fun y => (if y ≠ 0 then (1 : ℚ) else 0) * (c * minPos r))).sum
            = c * ((r.map (fun y => (if y ≠ 0 then (1 : ℚ) else 0) * minPos r)).sum) := by
          rw [List.map_map, ← sum_map_scale c, List.map_map]
          refine congrArg List.sum (List.map_congr_left (fun y _ => ?_))
          simp only [Function.comp]
          by_cases h : y = 0
          · simp [h]
          · simp only [h, ne_eq, not_false_iff, if_true, one_mul,
              mul_eq_zero, hc.ne', false_or, if_neg h]
        rw [hrw1, hrw2, mul_div_mul_left _ _ hc.ne']
        exact ih _ n _

/-! ### The validated path of `agreement` -/

theorem npMin_nonneg (l : List ℚ) (h : ∀ x ∈ l, 0 ≤ x) : ¬ npMin l 0 < 0 := by
  intro hlt
  obtain ⟨x, hx, hxneg⟩ := (npMin_neg_iff l).mp hlt
  exact absurd (h x hx) (not_le.mpr hxneg)

theorem val_map_int (v : List ℤ) :
    (v.map PyScalar.int).map PyScalar.val = v.map (fun (n : ℤ) => (n : ℚ)) := by
  rw [List.map_map]
  rfl

theorem all_isInt_map_int (v : List ℤ) :
    (v.map PyScalar.int).all PyScalar.isInt = true := by
  rw [List.all_eq_true]
  intro x hx
  obtain ⟨n, _, rfl⟩ := List.mem_map.mp hx
  rfl

theorem map_intCast_nonneg (v : List ℤ) (hnn : ∀ x ∈ v, 0 ≤ x) :
    ∀ y ∈ v.map (fun (n : ℤ) => (n : ℚ)), 0 ≤ y := by
  intro y hy
  obtain ⟨n, hn, rfl⟩ := List.mem_map.mp hy
  exact_mod_cast hnn n hn

theorem sum_map_intCast (v : List ℤ) :
    (v.map (fun (n : ℤ) => (n : ℚ))).sum = ((v.sum : ℤ) : ℚ) := by
  induction v with
  | nil => simp
  | cons x xs ih =>
      simp only [List.map_cons, List.sum_cons, ih]
      push_cast
      ring

theorem agreement_int_valid (v : List ℤ) (hlen : 3 ≤ v.length) (hnn : ∀ x ∈ v, 0 ≤ x) :
    agreement (v.map PyScalar.int)
      = match agreementLoop v.length (v.map (fun (n : ℤ) => (n : ℚ)))
          ((v.map (fun (n : ℤ) => (n : ℚ))).sum) 0 with
        | .error e => .error e
        | .ok (aa, _) => .ok aa := by
  rw [agreement, val_map_int, if_neg (by rw [List.length_map]; omega),
    if_neg (not_not_intro (all_isInt_map_int v)),
    if_neg (npMin_nonneg _ (map_intCast_nonneg v hnn)), List.length_map]

/-! ### One-layer inputs: all positive entries share the same value -/

theorem minPos_uniform (r : List ℚ) (x : ℚ) (hx : 0 < x)
    (hch : ∀ y ∈ r, y = x ∨ y = 0) (hex : ∃ y ∈ r, y ≠ 0) : minPos r = x := by
  obtain ⟨y, hy, hyne⟩ := hex
  have hyx : y = x := by
    rcases hch y hy with h | h
    · exact h
    · exact absurd h hyne
  subst hyx
  obtain ⟨hmpos, hmmem, hmle⟩ := minPos_pos r y hy hx
  rcases hch _ hmmem with h | h
  · exact h
  · exact absurd h (ne_of_gt hmpos)

theorem agreementLoop_uniform (fuel : ℕ) (r : List ℚ) (x : ℚ) (hx : 0 < x)
    (hch : ∀ y ∈ r, y = x ∨ y = 0) (hex : ∃ y ∈ r, y ≠ 0) (n aa : ℚ) :
    agreementLoop (fuel + 1) r n aa
      = .ok (aa + (((r.map (fun y => (if y ≠ 0 then (1 : ℚ) else 0) * x)).sum) / n) *
          patternVal (mkPattern r),
          r.map (fun y => y - (if y ≠ 0 then 1 else 0) * x)) := by
  have hm : minPos r = x := minPos_uniform r x hx hch hex
  have hz : ¬ maxP (mkPattern r) = 0 := by
    intro h
    obtain ⟨y, hy, hyne⟩ := hex
    exact hyne ((maxP_mkPattern_eq_zero_iff r).mp h y hy)
  rw [agreementLoop_succ, if_neg hz, step_remainder_eq, layer_sum_eq, hm]
  apply agreementLoop_all_zero
  intro z hz'
  obtain ⟨y, hy, rfl⟩ := List.mem_map.mp hz'
  rcases hch y hy with h | h
  · subst h
    simp [ne_of_gt hx]
  · subst h
    simp

/-! ### The two-extremes pattern: counting the triplets -/

theorem tdu_tu_ends (p : List ℕ) (hk : 3 ≤ p.length)
    (hch : ∀ i, i < p.length →
      p.getD i 0 = if i = 0 ∨ i = p.length - 1 then 1 else 0) :
    tdu p = p.length - 2 ∧ tu p = 0 := by
  constructor
  · rw [tdu]
    have h1 : ∀ i ∈ Finset.range (p.length - 2),
        (∑ j in Finset.Ico (i + 1) (p.length - 1), ∑ m in Finset.Ico (j + 1) p.length,
          if p.getD i 0 = 1 ∧ p.getD j 0 = 0 ∧ p.getD m 0 = 1 then 1 else 0)
        = if i = 0 then p.length - 2 else 0 := by
      intro i hi
      simp only [Finset.mem_range] at hi
      by_cases hi0 : i = 0
      · subst hi0
        rw [if_pos rfl]
        have h2 : ∀ j ∈ Finset.Ico (0 + 1) (p.length - 1),
            (∑ m in Finset.Ico (j + 1) p.length,
              if p.getD 0 0 = 1 ∧ p.getD j 0 = 0 ∧ p.getD m 0 = 1 then 1 else 0) = 1 := by
          intro j hj
          simp only [Finset.mem_Ico] at hj
          have h3 : ∀ m ∈ Finset.Ico (j + 1) p.length,
              (if p.getD 0 0 = 1 ∧ p.getD j 0 = 0 ∧ p.getD m 0 = 1 then 1 else 0)
              = if m = p.length - 1 then 1 else 0 := by
            intro m hm
            simp only [Finset.mem_Ico] at hm
            rw [hch 0 (by omega), hch j (by omega), hch m (by omega),
              if_pos (Or.inl rfl), if_neg (show ¬ (j = 0 ∨ j = p.length - 1) by omega)]
            by_cases hm1 : m = p.length - 1
            · rw [if_pos (Or.inr hm1), if_pos hm1]
              simp
            · rw [if_neg (show ¬ (m = 0 ∨ m = p.length - 1) by omega), if_neg hm1]
              simp
          rw [Finset.sum_congr rfl h3, Finset.sum_ite_eq' (Finset.Ico (j + 1) p.length)
            (p.length - 1) (fun _ => 1),
            if_pos (Finset.mem_Ico.mpr (by omega))]
        rw [Finset.sum_congr rfl h2, Finset.sum_const, Nat.card_Ico, smul_eq_mul,
          mul_one]
        omega
      · rw [if_neg hi0]
        refine Finset.sum_eq_zero (fun j hj => Finset.sum_eq_zero (fun m hm => ?_))
        simp only [Finset.mem_Ico] at hj hm
        rw [hch i (by omega),
          if_neg (show ¬ (i = 0 ∨ i = p.length - 1) by omega)]
        simp
    rw [Finset.sum_congr rfl h1,
      Finset.sum_ite_eq' (Finset.range (p.length - 2)) 0 (fun _ => p.length - 2),
      if_pos (Finset.mem_range.mpr (by omega))]
  · rw [tu]
    refine Finset.sum_eq_zero (fun i hi => Finset.sum_eq_zero (fun j hj =>
      Finset.sum_eq_zero (fun m hm => ?_)))
    simp only [Finset.mem_range, Finset.mem_Ico] at hi hj hm
    rw [hch j (by omega), if_neg (show ¬ (j = 0 ∨ j = p.length - 1) by omega)]
    simp

theorem sumP_ends (p : List ℕ) (hk : 3 ≤ p.length)
    (hch : ∀ i, i < p.length →
      p.getD i 0 = if i = 0 ∨ i = p.length - 1 then 1 else 0) :
    sumP p = 2 := by
  rw [sumP, sum_eq_sum_range,
    Finset.sum_congr rfl (fun i hi => hch i (Finset.mem_range.mp hi))]
  have hsplit : ∀ i ∈ Finset.range p.length,
      (if i = 0 ∨ i = p.length - 1 then 1 else 0)
      = (if i = 0 then 1 else 0) + (if i = p.length - 1 then 1 else 0) := by
    intro i _
    by_cases h0 : i = 0
    · rw [if_pos (Or.inl h0), if_pos h0, if_neg (by omega)]
    · by_cases h1 : i = p.length - 1
      · rw [if_pos (Or.inr h1), if_neg h0, if_pos h1]
      · rw [if_neg (by tauto), if_neg h0, if_neg h1]
  rw [Finset.sum_congr rfl hsplit, Finset.sum_add_distrib,
    Finset.sum_ite_eq' (Finset.range p.length) 0 (fun _ => 1),
    Finset.sum_ite_eq' (Finset.range p.length) (p.length - 1) (fun _ => 1),
    if_pos (Finset.mem_range.mpr (by omega)),
    if_pos (Finset.mem_range.mpr (by omega))]

theorem patternVal_ends (p : List ℕ) (hk : 3 ≤ p.length)
    (hch : ∀ i, i < p.length →
      p.getD i 0 = if i = 0 ∨ i = p.length - 1 then 1 else 0) :
    patternVal p = -1 := by
  obtain ⟨hdu, htu⟩ := tdu_tu_ends p hk hch
  have hs := sumP_ends p hk hch
  have hK : (3 : ℚ) ≤ (p.length : ℚ) := by exact_mod_cast hk
  have hcast : ((p.length - 2 : ℕ) : ℚ) = (p.length : ℚ) - 2 := by
    have : 2 ≤ p.length := by omega
    push_cast [this]
    ring
  rw [patternVal_no_nan p hk, if_neg (by omega), rawA, uVal, tVal, hdu, htu, hs,
    if_neg (by omega), hcast]
  push_cast
  have h2 : (p.length : ℚ) - 2 ≠ 0 := by linarith
  have h1 : (p.length : ℚ) - 1 ≠ 0 := by linarith
  field_simp
  ring

/-! ### Index-characterised vectors: sums and memberships -/

theorem getD_mem' {α : Type} (r : List α) (d : α) (i : ℕ) (hi : i < r.length) :
    r.getD i d ∈ r := by
  rw [List.getD_eq_getElem _ _ hi]
  exact List.getElem_mem hi

theorem mem_getD {α : Type} (r : List α) (d : α) (y : α) (hy : y ∈ r) :
    ∃ i, i < r.length ∧ r.getD i d = y := by
  obtain ⟨i, hi, hEq⟩ := List.mem_iff_getElem.mp hy
  exact ⟨i, hi, by rw [List.getD_eq_getElem _ _ hi]; exact hEq⟩

theorem sum_single_index (r : List ℚ) (j : ℕ) (x : ℚ) (hj : j < r.length)
    (hch : ∀ i, i < r.length → r.getD i 0 = if i = j then x else 0) :
    r.sum = x := by
  rw [sum_eq_sum_range,
    Finset.sum_congr rfl (fun i hi => hch i (Finset.mem_range.mp hi)),
    Finset.sum_ite_eq' (Finset.range r.length) j (fun _ => x),
    if_pos (Finset.mem_range.mpr hj)]

theorem sumP_single_index (p : List ℕ) (j : ℕ) (hj : j < p.length)
    (hch : ∀ i, i < p.length → p.getD i 0 = if i = j then 1 else 0) :
    sumP p = 1 := by
  rw [sumP, sum_eq_sum_range,
    Finset.sum_congr rfl (fun i hi => hch i (Finset.mem_range.mp hi)),
    Finset.sum_ite_eq' (Finset.range p.length) j (fun _ => 1),
    if_pos (Finset.mem_range.mpr hj)]

theorem sum_two_index (r : List ℚ) (x : ℚ) (hk : 3 ≤ r.length)
    (hch : ∀ i, i < r.length →
      r.getD i 0 = if i = 0 ∨ i = r.length - 1 then x else 0) :
    r.sum = x + x := by
  rw [sum_eq_sum_range,
    Finset.sum_congr rfl (fun i hi => hch i (Finset.mem_range.mp hi))]
  have hsplit : ∀ i ∈ Finset.range r.length,
      (if i = 0 ∨ i = r.length - 1 then x else 0)
      = (if i = 0 then x else 0) + (if i = r.length - 1 then x else 0) := by
    intro i _
    by_cases h0 : i = 0
    · rw [if_pos (Or.inl h0), if_pos h0, if_neg (by omega), add_zero]
    · by_cases h1 : i = r.length - 1
      · rw [if_pos (Or.inr h1), if_neg h0, if_pos h1, zero_add]
      · rw [if_neg (by tauto), if_neg h0, if_neg h1, add_zero]
  rw [Finset.sum_congr rfl hsplit, Finset.sum_add_distrib,
    Finset.sum_ite_eq' (Finset.range r.length) 0 (fun _ => x),
    Finset.sum_ite_eq' (Finset.range r.length) (r.length - 1) (fun _ => x),
    if_pos (Finset.mem_range.mpr (by omega)),
    if_pos (Finset.mem_range.mpr (by omega))]

/-! ## Claim theorems -/

/-- **C7**: `agreement` raises an error iff the input violates a precondition,
with the specified classification and priority: `LengthError` for vectors of
length 0, 1 or 2 (checked before any other validation), `TypeError` for a
vector containing a non-int-typed element, `NegativeValueError` for a vector
containing a negative element, and a normal return for inputs satisfying all
three preconditions. -/
theorem agreement_error_classification (v : List PyScalar) :
    (agreement v = .error .lengthError ↔ v.length < 3) ∧
    (agreement v = .error .typeError ↔
      3 ≤ v.length ∧ ¬ (∀ x ∈ v, x.isInt = true)) ∧
    (agreement v = .error .negativeValueError ↔
      3 ≤ v.length ∧ (∀ x ∈ v, x.isInt = true) ∧ ∃ x ∈ v, x.val < 0) ∧
    ((∃ q, agreement v = .ok q) ↔
      3 ≤ v.length ∧ (∀ x ∈ v, x.isInt = true) ∧ ∀ x ∈ v, 0 ≤ x.val) := by
  by_cases hl : v.length < 3
  · have hv : agreement v = .error .lengthError := by rw [agreement, if_pos hl]
    refine ⟨iff_of_true hv hl, iff_of_false ?_ ?_, iff_of_false ?_ ?_,
      iff_of_false ?_ ?_⟩
    · rw [hv]; simp
    · rintro ⟨h3, _⟩; omega
    · rw [hv]; simp
    · rintro ⟨h3, _⟩; omega
    · rintro ⟨q, hq⟩; rw [hv] at hq; simp at hq
    · rintro ⟨h3, _⟩; omega
  · by_cases hint : v.all PyScalar.isInt
    · have hall : ∀ x ∈ v, x.isInt = true := List.all_eq_true.mp hint
      by_cases hneg : npMin (v.map PyScalar.val) 0 < 0
      · have hv : agreement v = .error .negativeValueError := by
          rw [agreement, if_neg hl, if_neg (not_not_intro hint), if_pos hneg]
        obtain ⟨y, hy, hyneg⟩ := (npMin_neg_iff _).mp hneg
        obtain ⟨x, hx, rfl⟩ := List.mem_map.mp hy
        refine ⟨iff_of_false ?_ hl, iff_of_false ?_ ?_,
          iff_of_true hv ⟨by omega, hall, ⟨x, hx, hyneg⟩⟩, iff_of_false ?_ ?_⟩
        · rw [hv]; simp
        · rw [hv]; simp
        · rintro ⟨_, hni⟩; exact hni hall
        · rintro ⟨q, hq⟩; rw [hv] at hq; simp at hq
        · rintro ⟨_, _, hnn⟩; exact absurd (hnn x hx) (not_le.mpr hyneg)
      · obtain ⟨aa, r', hloop⟩ := agreementLoop_ok v.length (v.map PyScalar.val)
          ((v.map PyScalar.val).sum) 0
        have hv : agreement v = .ok aa := by
          rw [agreement, if_neg hl, if_neg (not_not_intro hint), if_neg hneg, hloop]
        have hnn : ∀ x ∈ v, 0 ≤ x.val := by
          intro x hx
          by_contra hcon
          exact hneg ((npMin_neg_iff _).mpr
            ⟨x.val, List.mem_map_of_mem _ hx, by linarith⟩)
        refine ⟨iff_of_false ?_ hl, iff_of_false ?_ ?_, iff_of_false ?_ ?_,
          iff_of_true ⟨aa, hv⟩ ⟨by omega, hall, hnn⟩⟩
        · rw [hv]; simp
        · rw [hv]; simp
        · rintro ⟨_, hni⟩; exact hni hall
        · rw [hv]; simp
        · rintro ⟨_, _, x, hx, hxneg⟩; exact absurd (hnn x hx) (not_le.mpr hxneg)
    · have hv : agreement v = .error .typeError := by
        rw [agreement, if_neg hl, if_pos hint]
      refine ⟨iff_of_false ?_ hl,
        iff_of_true hv ⟨by omega, fun hallx => hint (List.all_eq_true.mpr hallx)⟩,
        iff_of_false ?_ ?_, iff_of_false ?_ ?_⟩
      · rw [hv]; simp
      · rw [hv]; simp
      · rintro ⟨_, hall, _⟩; exact hint (List.all_eq_true.mpr hall)
      · rintro ⟨q, hq⟩; rw [hv] at hq; simp at hq
      · rintro ⟨_, hall, _⟩; exact hint (List.all_eq_true.mpr hall)

/-- **C9**: the `InvalidPatternError` branch of the helper is unreachable from
the public entry point: `agreement` never returns that error for any input,
because every pattern vector passed to the helper has entries only in {0, 1},
so the helper's guard always passes on those calls. -/
theorem invalidPattern_unreachable :
    (∀ v : List PyScalar, agreement v ≠ .error .invalidPatternError) ∧
    (∀ r : List ℚ, ∀ x ∈ mkPattern r, x = 0 ∨ x = 1) ∧
    (∀ r : List ℚ, patternAgreement (mkPattern r) = .ok (patternVal (mkPattern r))) := by
  refine ⟨?_, mkPattern_binary, patternAgreement_mkPattern⟩
  intro v h
  by_cases hl : v.length < 3
  · rw [agreement, if_pos hl] at h
    exact absurd h (by simp)
  by_cases hint : v.all PyScalar.isInt
  · by_cases hneg : npMin (v.map PyScalar.val) 0 < 0
    · rw [agreement, if_neg hl, if_neg (not_not_intro hint), if_pos hneg] at h
      exact absurd h (by simp)
    · obtain ⟨aa, r', hloop⟩ := agreementLoop_ok v.length (v.map PyScalar.val)
        ((v.map PyScalar.val).sum) 0
      rw [agreement, if_neg hl, if_neg (not_not_intro hint), if_neg hneg, hloop] at h
      exact absurd h (by simp)
  · rw [agreement, if_neg hl, if_pos hint] at h
    exact absurd h (by simp)

/-- **C8**: on an all-zero vector of length ≥ 3, `agreement` returns 0.0, and
the division by `n = 0` is never executed: with an all-zero remainder the loop
returns its accumulator unchanged (for any iteration budget and any `n`),
breaking before any weight computation. -/
theorem agreement_all_zeros (k : ℕ) (hk : 3 ≤ k) :
    agreement (List.replicate k (PyScalar.int 0)) = .ok 0 ∧
    (∀ (fuel : ℕ) (n aa : ℚ), agreementLoop fuel (List.replicate k 0) n aa
      = .ok (aa, List.replicate k 0)) := by
  constructor
  · have hval : (List.replicate k (PyScalar.int 0)).map PyScalar.val
        = List.replicate k (0 : ℚ) := by
      rw [List.map_replicate]
      norm_num [PyScalar.val]
    have hlen : ¬ (List.replicate k (PyScalar.int 0)).length < 3 := by
      rw [List.length_replicate]
      omega
    have hint : (List.replicate k (PyScalar.int 0)).all PyScalar.isInt = true := by
      rw [List.all_eq_true]
      intro x hx
      rw [List.eq_of_mem_replicate hx]
      rfl
    have hzero : ∀ x ∈ List.replicate k (0 : ℚ), x = 0 :=
      fun x hx => List.eq_of_mem_replicate hx
    have hneg : ¬ npMin ((List.replicate k (PyScalar.int 0)).map PyScalar.val) 0 < 0 := by
      rw [hval]
      exact npMin_nonneg _ (fun x hx => le_of_eq (hzero x hx).symm)
    rw [agreement, if_neg hlen, if_neg (not_not_intro hint), if_neg hneg, hval,
      agreementLoop_all_zero _ _ _ _ hzero]
  · intro fuel n aa
    exact agreementLoop_all_zero fuel _ n aa (fun x hx => List.eq_of_mem_replicate hx)

/-- **C10**: on every pattern of length k ≥ 3 with entries in {0, 1} (as
passed by `agreement`), every division has a nonzero denominator
(`(k-2)*(T_u+T_du) ≠ 0` whenever that branch divides, and `k-1 ≠ 0`), the
NaN-fallback branch is never taken, and the helper returns the raw formula
value subject only to the `s = 1` override. -/
theorem pattern_no_nan (p : List ℕ) (hk : 3 ≤ p.length) (hb : ∀ x ∈ p, x ≤ 1) :
    ¬ aIsNaN p ∧
    (tu p + tdu p ≠ 0 → ((p.length : ℚ) - 2) * ((tu p : ℚ) + (tdu p : ℚ)) ≠ 0) ∧
    ((p.length : ℚ) - 1 ≠ 0) ∧
    patternAgreement p = .ok (if sumP p = 1 then 1 else rawA p) := by
  have hK : (3 : ℚ) ≤ (p.length : ℚ) := by exact_mod_cast hk
  refine ⟨not_aIsNaN p hk, ?_, by linarith, ?_⟩
  · intro hT
    have h1 : (1 : ℚ) ≤ (tu p : ℚ) + (tdu p : ℚ) := by
      have h2 : 1 ≤ tu p + tdu p := Nat.one_le_iff_ne_zero.mpr hT
      exact_mod_cast h2
    exact ne_of_gt (mul_pos (show (0 : ℚ) < (p.length : ℚ) - 2 by linarith)
      (by linarith))
  · rw [patternAgreement, if_neg (by have := maxP_le p 1 hb; omega),
      patternVal_no_nan p hk]

/-- **C2**: on binary patterns of length k ≥ 3, `_pattern_agreement` computes
exactly the specification's formula: `T_du` and `T_u` as cardinalities of the
sets of ordered index triples (i, j, m), i < j < m, matching (1,0,1)
respectively (1,1,0)/(0,1,1), `U` by the aggregate formula with the
`T_u + T_du = 0` guard, and `A = U*(1-(s-1)/(k-1))`, subject to the edge-case
overrides (of which only the `s = 1` override can fire for k ≥ 3). -/
theorem patternAgreement_eq_spec (p : List ℕ) (hk : 3 ≤ p.length)
    (hb : ∀ x ∈ p, x = 0 ∨ x = 1) :
    patternAgreement p = .ok (if sSpec p = 1 then 1 else aSpecFormula p) := by
  have hb' : ∀ x ∈ p, x ≤ 1 := fun x hx => by rcases hb x hx with h | h <;> omega
  have hform : rawA p = aSpecFormula p := by
    simp only [rawA, uVal, tVal, aSpecFormula, tu_eq_spec, tdu_eq_spec,
      sumP_eq_sSpec p hb']
  rw [patternAgreement, if_neg (by have := maxP_le p 1 hb'; omega),
    patternVal_no_nan p hk, sumP_eq_sSpec p hb', hform]

/-- **C1**: for every valid frequency vector (length ≥ 3, non-negative
integer entries, positive sum), `agreement` returns normally with a value in
the closed interval [-1, 1]. -/
theorem agreement_bounded (v : List ℤ) (hlen : 3 ≤ v.length)
    (hnn : ∀ x ∈ v, 0 ≤ x) (hsum : 0 < v.sum) :
    ∃ q, agreement (v.map PyScalar.int) = .ok q ∧ -1 ≤ q ∧ q ≤ 1 := by
  have hr0 : ∀ y ∈ v.map (fun (n : ℤ) => (n : ℚ)), 0 ≤ y := map_intCast_nonneg v hnn
  have hlen' : 3 ≤ (v.map (fun (n : ℤ) => (n : ℚ))).length := by
    rw [List.length_map]
    exact hlen
  have hn : (0 : ℚ) < (v.map (fun (n : ℤ) => (n : ℚ))).sum := by
    rw [sum_map_intCast]
    exact_mod_cast hsum
  obtain ⟨aa', r', hres, hb⟩ := agreementLoop_bound v.length
    (v.map (fun (n : ℤ) => (n : ℚ))) 0
    ((v.map (fun (n : ℤ) => (n : ℚ))).sum) hlen' hr0 hn
  rw [div_self hn.ne', sub_zero] at hb
  refine ⟨aa', ?_, (abs_le.mp hb).1, (abs_le.mp hb).2⟩
  rw [agreement_int_valid v hlen hnn, hres]

/-- **C6**: the layer-decomposition loop terminates within its k-iteration
budget with an all-zero remainder, and each executed iteration subtracts the
minimum positive remainder value from every active category, turning at least
one previously-positive entry (one achieving the minimum) into zero. -/
theorem agreement_decomposition_terminates (v : List ℤ) (_hlen : 3 ≤ v.length)
    (hnn : ∀ x ∈ v, 0 ≤ x) :
    (∃ aa' r', agreementLoop v.length (v.map (fun (n : ℤ) => (n : ℚ)))
        ((v.map (fun (n : ℤ) => (n : ℚ))).sum) 0 = .ok (aa', r') ∧
        ∀ x ∈ r', x = 0) ∧
    (∀ r : List ℚ, (∀ x ∈ r, 0 ≤ x) → (∃ x ∈ r, x ≠ 0) →
      ∃ x ∈ r, 0 < x ∧ x - (if x ≠ 0 then 1 else 0) * minPos r = 0) := by
  refine ⟨?_, exists_entry_zeroed⟩
  apply agreementLoop_terminates v.length (v.map (fun (n : ℤ) => (n : ℚ)))
    ((v.map (fun (n : ℤ) => (n : ℚ))).sum) 0 (map_intCast_nonneg v hnn)
  calc countPos (v.map (fun (n : ℤ) => (n : ℚ)))
      ≤ (v.map (fun (n : ℤ) => (n : ℚ))).length := List.length_filter_le _ _
    _ = v.length := List.length_map _ _

/-- **C5**: scale invariance: multiplying every entry of a valid frequency
vector by a positive integer constant does not change the result of
`agreement`. -/
theorem agreement_scale_invariant (v : List ℤ) (c : ℤ) (hlen : 3 ≤ v.length)
    (hnn : ∀ x ∈ v, 0 ≤ x) (hc : 0 < c) :
    agreement ((v.map (fun n => c * n)).map PyScalar.int)
      = agreement (v.map PyScalar.int) := by
  have hnn' : ∀ x ∈ v.map (fun n => c * n), 0 ≤ x := by
    intro x hx
    obtain ⟨n, hn, rfl⟩ := List.mem_map.mp hx
    exact mul_nonneg hc.le (hnn n hn)
  have hlen2 : 3 ≤ (v.map (fun n => c * n)).length := by
    rw [List.length_map]
    exact hlen
  rw [agreement_int_valid _ hlen2 hnn', agreement_int_valid v hlen hnn]
  have hcast : (v.map (fun n => c * n)).map (fun (n : ℤ) => (n : ℚ))
      = (v.map (fun (n : ℤ) => (n : ℚ))).map (fun y => (c : ℚ) * y) := by
    rw [List.map_map, List.map_map]
    refine List.map_congr_left (fun n _ => ?_)
    simp only [Function.comp]
    push_cast
    ring
  have hclen : (v.map (fun n => c * n)).length = v.length := List.length_map _ _
  have hcq : (0 : ℚ) < (c : ℚ) := by exact_mod_cast hc
  rw [hcast, hclen, sum_map_scale, agreementLoop_scale (c : ℚ) hcq v.length]
  obtain ⟨aa, r', hloop⟩ := agreementLoop_ok v.length
    (v.map (fun (n : ℤ) => (n : ℚ))) ((v.map (fun (n : ℤ) => (n : ℚ))).sum) 0
  rw [hloop]
  rfl

/-- **C3**: a vector with exactly one nonzero (positive) entry yields exactly
1.0, regardless of the length and of which position holds the mass; and, in
the helper, the `s = 1` override forces the value 1 regardless of what the
formula produced. -/
theorem agreement_single_category (v : List ℤ) (j : ℕ) (hlen : 3 ≤ v.length)
    (hj : j < v.length) (hpos : 0 < v.getD j 0)
    (hzero : ∀ i, i < v.length → i ≠ j → v.getD i 0 = 0) :
    agreement (v.map PyScalar.int) = .ok 1 ∧
    (∀ p : List ℕ, sumP p = 1 → patternVal p = 1) := by
  refine ⟨?_, fun p hs => by simp [patternVal, hs]⟩
  have hvch : ∀ i, i < v.length → v.getD i 0 = if i = j then v.getD j 0 else 0 := by
    intro i hi
    by_cases h : i = j
    · subst h
      rw [if_pos rfl]
    · rw [if_neg h]
      exact hzero i hi h
  have hnn : ∀ a ∈ v, 0 ≤ a := by
    intro a ha
    obtain ⟨i, hi, hieq⟩ := mem_getD v 0 a ha
    rw [← hieq, hvch i hi]
    by_cases h : i = j
    · rw [if_pos h]
      exact hpos.le
    · rw [if_neg h]
  have hxpos : (0 : ℚ) < ((v.getD j 0 : ℤ) : ℚ) := by exact_mod_cast hpos
  have hr0len : (v.map (fun (n : ℤ) => (n : ℚ))).length = v.length :=
    List.length_map _ _
  have hr0 : ∀ i, i < v.length → (v.map (fun (n : ℤ) => (n : ℚ))).getD i 0
      = if i = j then ((v.getD j 0 : ℤ) : ℚ) else 0 := by
    intro i hi
    rw [getD_map_of_lt _ v i 0 0 hi, hvch i hi]
    by_cases h : i = j <;> simp [h]
  have hch : ∀ y ∈ v.map (fun (n : ℤ) => (n : ℚ)),
      y = ((v.getD j 0 : ℤ) : ℚ) ∨ y = 0 := by
    intro y hy
    obtain ⟨i, hi, hieq⟩ := mem_getD _ 0 y hy
    rw [hr0len] at hi
    rw [← hieq, hr0 i hi]
    by_cases h : i = j
    · exact Or.inl (if_pos h)
    · exact Or.inr (if_neg h)
  have hex : ∃ y ∈ v.map (fun (n : ℤ) => (n : ℚ)), y ≠ 0 := by
    refine ⟨((v.getD j 0 : ℤ) : ℚ), ?_, hxpos.ne'⟩
    have hgd : (v.map (fun (n : ℤ) => (n : ℚ))).getD j 0 = ((v.getD j 0 : ℤ) : ℚ) := by
      rw [hr0 j hj, if_pos rfl]
    rw [← hgd]
    exact getD_mem' _ 0 j (by omega)
  obtain ⟨f, hf⟩ : ∃ f, v.length = f + 1 := ⟨v.length - 1, by omega⟩
  rw [agreement_int_valid v hlen hnn, hf,
    agreementLoop_uniform f _ ((v.getD j 0 : ℤ) : ℚ) hxpos hch hex _ 0]
  have hn : (v.map (fun (n : ℤ) => (n : ℚ))).sum = ((v.getD j 0 : ℤ) : ℚ) :=
    sum_single_index _ j _ (by omega) (fun i hi => hr0 i (by omega))
  have hLlen : ((v.map (fun (n : ℤ) => (n : ℚ))).map
      (fun y => (if y ≠ 0 then (1 : ℚ) else 0) * ((v.getD j 0 : ℤ) : ℚ))).length
      = v.length := by
    rw [List.length_map, hr0len]
  have hLS : ((v.map (fun (n : ℤ) => (n : ℚ))).map
      (fun y => (if y ≠ 0 then (1 : ℚ) else 0) * ((v.getD j 0 : ℤ) : ℚ))).sum
      = ((v.getD j 0 : ℤ) : ℚ) := by
    refine sum_single_index _ j _ (by omega) (fun i hi => ?_)
    rw [hLlen] at hi
    by_cases h : i = j
    · rw [if_pos h]
      subst h
      rw [getD_map_of_lt _ _ i 0 0 (by omega), hr0 i hi, if_pos rfl,
        if_pos hxpos.ne', one_mul]
    · rw [if_neg h, getD_map_of_lt _ _ i 0 0 (by omega), hr0 i hi, if_neg h,
        if_neg (not_not_intro rfl), zero_mul]
  have hplen : (mkPattern (v.map (fun (n : ℤ) => (n : ℚ)))).length = v.length := by
    rw [mkPattern_length, hr0len]
  have hpch : ∀ i, i < v.length →
      (mkPattern (v.map (fun (n : ℤ) => (n : ℚ)))).getD i 0 = if i = j then 1 else 0 := by
    intro i hi
    by_cases h : i = j
    · rw [if_pos h]
      subst h
      rw [mkPattern_getD _ i (by omega), hr0 i hi, if_pos rfl, if_pos hxpos.ne']
    · rw [if_neg h, mkPattern_getD _ i (by omega), hr0 i hi, if_neg h,
        if_neg (not_not_intro rfl)]
  have hsp : sumP (mkPattern (v.map (fun (n : ℤ) => (n : ℚ)))) = 1 :=
    sumP_single_index _ j (by omega) (fun i hi => hpch i (by omega))
  have hval1 : (0 : ℚ) + (((v.map (fun (n : ℤ) => (n : ℚ))).map
      (fun y => (if y ≠ 0 then (1 : ℚ) else 0) * ((v.getD j 0 : ℤ) : ℚ))).sum
        / (v.map (fun (n : ℤ) => (n : ℚ))).sum) *
      patternVal (mkPattern (v.map (fun (n : ℤ) => (n : ℚ)))) = 1 := by
    rw [hLS, hn, div_self hxpos.ne']
    simp [patternVal, hsp]
  rw [hval1]

/-- **C4**: for every length k ≥ 3 and every positive integer x, the vector
with x in the first position, x in the last position and 0 everywhere else
yields exactly -1.0. -/
theorem agreement_extreme_bimodal (v : List ℤ) (x : ℤ) (hlen : 3 ≤ v.length)
    (hx : 0 < x)
    (hvch : ∀ i, i < v.length →
      v.getD i 0 = if i = 0 ∨ i = v.length - 1 then x else 0) :
    agreement (v.map PyScalar.int) = .ok (-1) := by
  have hnn : ∀ a ∈ v, 0 ≤ a := by
    intro a ha
    obtain ⟨i, hi, hieq⟩ := mem_getD v 0 a ha
    rw [← hieq, hvch i hi]
    by_cases h : i = 0 ∨ i = v.length - 1
    · rw [if_pos h]
      exact hx.le
    · rw [if_neg h]
  have hxq : (0 : ℚ) < ((x : ℤ) : ℚ) := by exact_mod_cast hx
  have hr0len : (v.map (fun (n : ℤ) => (n : ℚ))).length = v.length :=
    List.length_map _ _
  have hr0 : ∀ i, i < v.length → (v.map (fun (n : ℤ) => (n : ℚ))).getD i 0
      = if i = 0 ∨ i = v.length - 1 then ((x : ℤ) : ℚ) else 0 := by
    intro i hi
    rw [getD_map_of_lt _ v i 0 0 hi, hvch i hi]
    by_cases h : i = 0 ∨ i = v.length - 1 <;> simp [h]
  have hch : ∀ y ∈ v.map (fun (n : ℤ) => (n : ℚ)), y = ((x : ℤ) : ℚ) ∨ y = 0 := by
    intro y hy
    obtain ⟨i, hi, hieq⟩ := mem_getD _ 0 y hy
    rw [hr0len] at hi
    rw [← hieq, hr0 i hi]
    by_cases h : i = 0 ∨ i = v.length - 1
    · exact Or.inl (if_pos h)
    · exact Or.inr (if_neg h)
  have hex : ∃ y ∈ v.map (fun (n : ℤ) => (n : ℚ)), y ≠ 0 := by
    refine ⟨((x : ℤ) : ℚ), ?_, hxq.ne'⟩
    have hgd : (v.map (fun (n : ℤ) => (n : ℚ))).getD 0 0 = ((x : ℤ) : ℚ) := by
      rw [hr0 0 (by omega), if_pos (Or.inl rfl)]
    rw [← hgd]
    exact getD_mem' _ 0 0 (by omega)
  obtain ⟨f, hf⟩ : ∃ f, v.length = f + 1 := ⟨v.length - 1, by omega⟩
  rw [agreement_int_valid v hlen hnn, hf,
    agreementLoop_uniform f _ ((x : ℤ) : ℚ) hxq hch hex _ 0]
  have hn : (v.map (fun (n : ℤ) => (n : ℚ))).sum = ((x : ℤ) : ℚ) + ((x : ℤ) : ℚ) :=
    sum_two_index _ _ (by omega) (fun i hi => by rw [hr0 i (by omega), hr0len])
  have hLlen : ((v.map (fun (n : ℤ) => (n : ℚ))).map
      (fun y => (if y ≠ 0 then (1 : ℚ) else 0) * ((x : ℤ) : ℚ))).length
      = v.length := by
    rw [List.length_map, hr0len]
  have hLS : ((v.map (fun (n : ℤ) => (n : ℚ))).map
      (fun y => (if y ≠ 0 then (1 : ℚ) else 0) * ((x : ℤ) : ℚ))).sum
      = ((x : ℤ) : ℚ) + ((x : ℤ) : ℚ) := by
    refine sum_two_index _ _ (by omega) (fun i hi => ?_)
    rw [hLlen] at hi ⊢
    by_cases h : i = 0 ∨ i = v.length - 1
    · rw [if_pos h, getD_map_of_lt _ _ i 0 0 (by omega), hr0 i hi, if_pos h,
        if_pos hxq.ne', one_mul]
    · rw [if_neg h, getD_map_of_lt _ _ i 0 0 (by omega), hr0 i hi, if_neg h,
        if_neg (not_not_intro rfl), zero_mul]
  have hplen : (mkPattern (v.map (fun (n : ℤ) => (n : ℚ)))).length = v.length := by
    rw [mkPattern_length, hr0len]
  have hpch : ∀ i, i < (mkPattern (v.map (fun (n : ℤ) => (n : ℚ)))).length →
      (mkPattern (v.map (fun (n : ℤ) => (n : ℚ)))).getD i 0
      = if i = 0 ∨ i = (mkPattern (v.map (fun (n : ℤ) => (n : ℚ)))).length - 1
        then 1 else 0 := by
    intro i hi
    rw [hplen] at hi ⊢
    by_cases h : i = 0 ∨ i = v.length - 1
    · rw [if_pos h, mkPattern_getD _ i (by omega), hr0 i hi, if_pos h,
        if_pos hxq.ne']
    · rw [if_neg h, mkPattern_getD _ i (by omega), hr0 i hi, if_neg h,
        if_neg (not_not_intro rfl)]
  have hpv : patternVal (mkPattern (v.map (fun (n : ℤ) => (n : ℚ)))) = -1 :=
    patternVal_ends _ (by omega) hpch
  have hval1 : (0 : ℚ) + (((v.map (fun (n : ℤ) => (n : ℚ))).map
      (fun y => (if y ≠ 0 then (1 : ℚ) else 0) * ((x : ℤ) : ℚ))).sum
        / (v.map (fun (n : ℤ) => (n : ℚ))).sum) *
      patternVal (mkPattern (v.map (fun (n : ℤ) => (n : ℚ)))) = -1 := by
    rw [hLS, hn, hpv, div_self (by linarith)]
    ring
  rw [hval1]

/-! ## Witnesses -/

theorem agreement_bounded_witness :
    ∃ q, agreement (([1, 1, 1] : List ℤ).map PyScalar.int) = .ok q ∧
      -1 ≤ q ∧ q ≤ 1 :=
  agreement_bounded [1, 1, 1] (by decide) (by decide) (by decide)

theorem patternAgreement_eq_spec_witness :
    patternAgreement [1, 0, 1]
      = .ok (if sSpec [1, 0, 1] = 1 then 1 else aSpecFormula [1, 0, 1]) :=
  patternAgreement_eq_spec [1, 0, 1] (by decide) (by decide)

theorem agreement_single_category_witness :
    agreement (([0, 0, 100, 0, 0] : List ℤ).map PyScalar.int) = .ok 1 ∧
    (∀ p : List ℕ, sumP p = 1 → patternVal p = 1) :=
  agreement_single_category [0, 0, 100, 0, 0] 2 (by decide) (by decide) (by decide)
    (by
      intro i hi hne
      have hi5 : i < 5 := by simpa using hi
      interval_cases i
      · rfl
      · rfl
      · exact absurd rfl hne
      · rfl
      · rfl)

theorem agreement_extreme_bimodal_witness :
    agreement (([50, 0, 0, 0, 50] : List ℤ).map PyScalar.int) = .ok (-1) :=
  agreement_extreme_bimodal [50, 0, 0, 0, 50] 50 (by decide) (by decide)
    (by
      intro i hi
      have hi5 : i < 5 := by simpa using hi
      interval_cases i <;> rfl)

theorem agreement_scale_invariant_witness :
    agreement ((([1, 2, 3] : List ℤ).map (fun n => 2 * n)).map PyScalar.int)
      = agreement (([1, 2, 3] : List ℤ).map PyScalar.int) :=
  agreement_scale_invariant [1, 2, 3] 2 (by decide) (by decide) (by decide)

theorem agreement_decomposition_terminates_witness :
    (∃ aa' r', agreementLoop ([1, 2, 3] : List ℤ).length
        (([1, 2, 3] : List ℤ).map (fun (n : ℤ) => (n : ℚ)))
        ((([1, 2, 3] : List ℤ).map (fun (n : ℤ) => (n : ℚ))).sum) 0
        = .ok (aa', r') ∧ ∀ x ∈ r', x = 0) ∧
    (∀ r : List ℚ, (∀ x ∈ r, 0 ≤ x) → (∃ x ∈ r, x ≠ 0) →
      ∃ x ∈ r, 0 < x ∧ x - (if x ≠ 0 then 1 else 0) * minPos r = 0) :=
  agreement_decomposition_terminates [1, 2, 3] (by decide) (by decide)

theorem agreement_all_zeros_witness :
    agreement (List.replicate 5 (PyScalar.int 0)) = .ok 0 ∧
    (∀ (fuel : ℕ) (n aa : ℚ), agreementLoop fuel (List.replicate 5 0) n aa
      = .ok (aa, List.replicate 5 0)) :=
  agreement_all_zeros 5 (by decide)

theorem pattern_no_nan_witness :
    ¬ aIsNaN [1, 0, 1] ∧
    (tu [1, 0, 1] + tdu [1, 0, 1] ≠ 0 →
      ((([1, 0, 1] : List ℕ).length : ℚ) - 2) *
        ((tu [1, 0, 1] : ℚ) + (tdu [1, 0, 1] : ℚ)) ≠ 0) ∧
    ((([1, 0, 1] : List ℕ).length : ℚ) - 1 ≠ 0) ∧
    patternAgreement [1, 0, 1]
      = .ok (if sumP [1, 0, 1] = 1 then 1 else rawA [1, 0, 1]) :=
  pattern_no_nan [1, 0, 1] (by decide) (by decide)

end Agrmt
